import Mathlib

/-!
# In-memory credential protection (`web_utilities.cpp`)

A shallow embedding of `Release/src/utilities/web_utilities.cpp`: the secure
eraser `winrt_secure_zero_memory`, the deleter of `plaintext_string`, the
synchronous protector `win32_encryption` and the asynchronous protector
`winrt_encryption`.

Modelling conventions.

* Memory regions are lists of bytes; a `std::wstring` is a list of 16-bit code
  units (`sizeof(std::wstring::value_type) = 2` on the Windows targets this
  file is compiled for, and the source itself divides byte counts by `2`).
* Sizes are natural numbers: strings and vectors are bounded by what can be
  allocated, so the `size_t` products and sums of the source do not wrap, and
  a secret stays far below the 4 GiB at which a byte count would no longer
  fit the 32-bit count parameter of the memory primitives.
* The operating-system primitives (`CryptProtectMemory`,
  `CryptUnprotectMemory`, `ProtectAsync`, `UnprotectAsync`) and the constant
  `CRYPTPROTECTMEMORY_BLOCK_SIZE` are parameters.
* Allocation failure is not modelled.
-/

namespace web.details

/-! ## Data model -/

/-- One byte of memory. -/
abbrev Byte := Fin 256

/-- The type `std::wstring::value_type` on Windows: a 16-bit code unit. -/
abbrev WChar := Fin 65536

/-- The value `sizeof(std::wstring::value_type)`. -/
def sizeof_value_type : Nat := 2

/-- Object representation of one code unit (low byte first). -/
def bytesOfWChar (c : WChar) : List Byte :=
  [⟨c.val % 256, Nat.mod_lt _ (by decide)⟩,
   ⟨c.val / 256, by have := c.isLt; omega⟩]

/-- The code unit whose object representation is the two bytes `lo`, `hi`. -/
def wcharOfBytes (lo hi : Byte) : WChar :=
  ⟨lo.val + 256 * hi.val, by have := lo.isLt; have := hi.isLt; omega⟩

/-- The bytes of the characters of a string, as seen through
`reinterpret_cast<unsigned char *>(data.c_str())` (terminator excluded). -/
def bytesOfWString : List WChar → List Byte
  | [] => []
  | c :: cs => bytesOfWChar c ++ bytesOfWString cs

/-- The storage behind `c_str()`: the characters followed by the terminating
null character. -/
def c_str (data : List WChar) : List Byte :=
  bytesOfWString data ++ [0, 0]

/-- Memory read through `reinterpret_cast<const std::wstring::value_type *>`:
consecutive byte pairs are code units; a trailing odd byte is not a unit. -/
def wcharsOfBytes : List Byte → List WChar
  | lo :: hi :: rest => wcharOfBytes lo hi :: wcharsOfBytes rest
  | _ => []

/-- The constructor `std::wstring(ptr, n)`: the first `n` code units at `ptr`. -/
def wstring_from (mem : List Byte) (n : Nat) : List WChar :=
  (wcharsOfBytes mem).take n

/-- The member `resize(n)` of `std::vector<char>` and of `std::wstring`:
truncates, or appends value-initialised (zero) elements. -/
def resize {α : Type} [Zero α] (v : List α) (n : Nat) : List α :=
  v.take n ++ List.replicate (n - v.length) 0

/-- The call `memcpy_s(dest, destsz, src, count)`: the first `count` bytes of
`dest` are replaced by the first `count` bytes of `src`; when `count` exceeds
`destsz` nothing is copied and the destination is cleared instead. -/
def memcpy_s (dest : List Byte) (destsz : Nat) (src : List Byte) (count : Nat) :
    List Byte :=
  if count ≤ destsz then
    src.take count ++ dest.drop count
  else
    List.replicate (min destsz dest.length) 0 ++ dest.drop destsz

/-! ## SecureEraser -/

/-- The loop of `winrt_secure_zero_memory`: `vptr` is the offset of the
volatile pointer into the buffer, `count` the remaining byte count. -/
def winrt_secure_zero_memory.loop : List Byte → Nat → Nat → List Byte
  | mem, _, 0 => mem
  | mem, vptr, count + 1 =>
      winrt_secure_zero_memory.loop (mem.set vptr 0) (vptr + 1) count

/-- The function `winrt_secure_zero_memory(buffer, count)`; the result is the
content of the buffer's memory when the function returns. -/
def winrt_secure_zero_memory (buffer : List Byte) (count : Nat) : List Byte :=
  winrt_secure_zero_memory.loop buffer 0 count

/-- Modelled from the spec: the Windows primitive `SecureZeroMemory(ptr, cnt)`
is not part of the sources; the spec's SecureEraser `wipe(buffer, length)`
"overwrites `length` bytes at `buffer` with zero". -/
def SecureZeroMemory (buffer : List Byte) (cnt : Nat) : List Byte :=
  List.replicate (min cnt buffer.length) 0 ++ buffer.drop cnt

/-- The call operator of `zero_memory_deleter` on a string with characters
`data`. The flag selects the `__cplusplus_winrt` branch of the `#if`. The
result is the content of the string's storage at the moment of `delete data`. -/
def zero_memory_deleter (cplusplus_winrt : Bool) (data : List WChar) : List Byte :=
  if cplusplus_winrt then
    winrt_secure_zero_memory (c_str data) (data.length * sizeof_value_type)
  else
    SecureZeroMemory (c_str data) (data.length * sizeof_value_type)

/-! ## Synchronous protector -/

/-- Outcome of one call of an in-place memory primitive
(`CryptProtectMemory`, `CryptUnprotectMemory`) on a region of `n` bytes. -/
structure MemResult (n : Nat) where
  /-- The `BOOL` return value. -/
  success : Bool
  /-- The value `GetLastError()` reports after the call. -/
  lastError : Nat
  /-- Content of the region after the call. -/
  bytes : List Byte
  /-- The primitive works in place: the region keeps its size. -/
  size_eq : bytes.length = n

/-- An in-place memory primitive, as a function of the region it is given. -/
abbrev MemPrimitive := (region : List Byte) → MemResult region.length

/-- The data members of `win32_encryption`. -/
structure win32_encryption where
  m_buffer : List Byte
  m_numCharacters : Nat
deriving DecidableEq

/-- The buffer `m_buffer` at the call of `CryptProtectMemory` in the
constructor: the characters of `data`, padded with zero bytes up to a
multiple of the block size. -/
def win32_encryption.paddedBuffer (CRYPTPROTECTMEMORY_BLOCK_SIZE : Nat)
    (data : List WChar) : List Byte :=
  let dataNumBytes := data.length * sizeof_value_type
  let m_buffer : List Byte := resize [] dataNumBytes
  let m_buffer := memcpy_s m_buffer m_buffer.length (c_str data) dataNumBytes
  let mod := m_buffer.length % CRYPTPROTECTMEMORY_BLOCK_SIZE
  if mod ≠ 0 then
    resize m_buffer (m_buffer.length + CRYPTPROTECTMEMORY_BLOCK_SIZE - mod)
  else
    m_buffer

/-- What a constructor call leaves behind. -/
structure Constructed (Obj : Type) where
  /-- The caller's string `data` after the call (passed as
  `const std::wstring &`; the constructor only reads it). -/
  data : List WChar
  /-- The constructed object, or the code of the thrown system error. -/
  result : Except Nat Obj

/-- The constructor `win32_encryption::win32_encryption(const std::wstring &data)`
(a declaration named after its own structure would shadow the structure, so
the constructor goes by `create`). -/
def win32_encryption.create (CRYPTPROTECTMEMORY_BLOCK_SIZE : Nat)
    (CryptProtectMemory : MemPrimitive) (data : List WChar) :
    Constructed win32_encryption :=
  let m_numCharacters := data.length
  let m_buffer := win32_encryption.paddedBuffer CRYPTPROTECTMEMORY_BLOCK_SIZE data
  let r := CryptProtectMemory m_buffer
  if !r.success then
    { data := data, result := .error r.lastError }
  else
    { data := data,
      result := .ok { m_buffer := r.bytes, m_numCharacters := m_numCharacters } }

/-- How a call of `decrypt()` ends. -/
inductive Decrypted where
  /-- Normal return: the characters of the returned `plaintext_string`. -/
  | returned (handle : List WChar)
  /-- A system error with code `code` is thrown; unwinding releases the local
  `plaintext_string`, and `released` is the content of its storage at
  deallocation. -/
  | threw (code : Nat) (released : List Byte)
deriving DecidableEq

/-- What a call of `win32_encryption::decrypt` leaves behind. -/
structure win32_encryption.DecryptOutcome where
  /-- The protector after the call. -/
  self : win32_encryption
  outcome : Decrypted

/-- The member function `win32_encryption::decrypt() const`. -/
def win32_encryption.decrypt (CryptUnprotectMemory : MemPrimitive)
    (self : win32_encryption) : win32_encryption.DecryptOutcome :=
  -- new std::wstring(reinterpret_cast<...>(m_buffer.data()), m_buffer.size() / 2)
  let data := wstring_from self.m_buffer (self.m_buffer.length / 2)
  -- CryptUnprotectMemory(data->c_str(), m_buffer.size(), ...) works in place on
  -- the first m_buffer.size() bytes of the string's storage
  let storage := c_str data
  let r := CryptUnprotectMemory (storage.take self.m_buffer.length)
  let storage := r.bytes ++ storage.drop self.m_buffer.length
  let data := wstring_from storage data.length
  if !r.success then
    { self := self, outcome := .threw r.lastError (zero_memory_deleter false data) }
  else
    { self := self, outcome := .returned (resize data self.m_numCharacters) }

/-! ## Asynchronous protector -/

/-- An asynchronous platform operation (`ProtectAsync`, `UnprotectAsync`),
as the function from the content of its input buffer to what its task
resolves to: the content of the resulting `IBuffer`, or the platform error
code of the exception the task carries. -/
abbrev AsyncOperation := List Byte → Except Nat (List Byte)

/-- The state of a `pplx::task<IBuffer ^>`. -/
inductive TaskState where
  /-- The operation is still in flight. -/
  | pending
  /-- The task has resolved, to a buffer or to an exception. -/
  | completed (value : Except Nat (List Byte))

/-- The data members of `winrt_encryption`. -/
structure winrt_encryption where
  m_buffer : TaskState

/-- The protector together with the work its constructor scheduled. -/
structure AsyncState where
  /-- The protector object. -/
  self : winrt_encryption
  /-- Content of the `IBuffer` named `plaintext`, which the continuation
  captures by value of its handle. -/
  plaintext : List Byte
  /-- Whether the continuation attached with `m_buffer.then` has run. -/
  continuation_ran : Bool

/-- The function `winrt_secure_zero_buffer(buffer)`; the result is the content
of the buffer afterwards. -/
def winrt_secure_zero_buffer (buffer : List Byte) : List Byte :=
  winrt_secure_zero_memory buffer buffer.length

/-- The call `CryptographicBuffer::CreateFromByteArray(arrayref)`, where
`arrayref` refers to `count` bytes at `ptr`: a new buffer holding a copy of
those bytes. -/
def CreateFromByteArray (ptr : List Byte) (count : Nat) : List Byte :=
  ptr.take count

/-- The constructor `winrt_encryption::winrt_encryption(const std::wstring &data)`.
It returns without waiting: the protect task is pending and the continuation
has not run. -/
def winrt_encryption.create (data : List WChar) : Constructed AsyncState :=
  let plaintext := CreateFromByteArray (c_str data) (data.length * sizeof_value_type)
  { data := data,
    result := .ok
      { self := { m_buffer := .pending },
        plaintext := plaintext,
        continuation_ran := false } }

/-- What the task runtime can do next. -/
inductive Event where
  /-- The platform service completes `ProtectAsync(plaintext)`. -/
  | resolve
  /-- The continuation attached with `m_buffer.then` runs. -/
  | continuation
deriving DecidableEq

/-- Modelled from the spec: the task runtime (`pplx::create_task`, `then`) is
not part of the sources. The pending operation resolves once, to what the
service computes from the transient buffer; the continuation, which takes the
antecedent task itself as its argument, runs once after the task has resolved,
whatever the outcome, and "zeroes the transient plaintext buffer once the
service has consumed it". An event that is not enabled yields `none`. -/
def AsyncState.step (ProtectAsync : AsyncOperation) :
    Event → AsyncState → Option AsyncState
  | .resolve, st =>
      match st.self.m_buffer with
      | .pending =>
          some { st with self := { m_buffer := .completed (ProtectAsync st.plaintext) } }
      | .completed _ => none
  | .continuation, st =>
      match st.self.m_buffer with
      | .pending => none
      | .completed _ =>
          if st.continuation_ran then none
          else some { st with plaintext := winrt_secure_zero_buffer st.plaintext,
                              continuation_ran := true }

/-- A schedule: the events of the task runtime in the order they happen. -/
def AsyncState.run (ProtectAsync : AsyncOperation) :
    List Event → AsyncState → Option AsyncState
  | [], st => some st
  | e :: es, st =>
      match AsyncState.step ProtectAsync e st with
      | some st' => AsyncState.run ProtectAsync es st'
      | none => none

/-- Modelled from the spec: the call `m_buffer.get()`, which "blocks the
calling thread until the pending protect task completes ... if not already
complete" and yields what the task resolved to. -/
def AsyncState.get (ProtectAsync : AsyncOperation) (st : AsyncState) :
    AsyncState × Except Nat (List Byte) :=
  match st.self.m_buffer with
  | .completed value => (st, value)
  | .pending =>
      let value := ProtectAsync st.plaintext
      ({ st with self := { m_buffer := .completed value } }, value)

/-- What a call of `winrt_encryption::decrypt` leaves behind. -/
structure winrt_encryption.DecryptOutcome where
  /-- The protector and its scheduled work after the call. -/
  state : AsyncState
  /-- The characters of the returned `plaintext_string`, or the code of the
  platform error that surfaced. -/
  result : Except Nat (List WChar)
  /-- Content of the buffer obtained from `UnprotectAsync` when `decrypt`
  returns (`none` when no such buffer was obtained). -/
  rawPlaintext : Option (List Byte)

/-- The member function `winrt_encryption::decrypt() const`. -/
def winrt_encryption.decrypt (ProtectAsync UnprotectAsync : AsyncOperation)
    (st : AsyncState) : winrt_encryption.DecryptOutcome :=
  -- auto encrypted = m_buffer.get();
  match AsyncState.get ProtectAsync st with
  | (st, .error code) => { state := st, result := .error code, rawPlaintext := none }
  | (st, .ok encrypted) =>
      -- pplx::create_task(provider->UnprotectAsync(encrypted)).get()
      match UnprotectAsync encrypted with
      | .error code => { state := st, result := .error code, rawPlaintext := none }
      | .ok plaintext =>
          let data := wstring_from plaintext (plaintext.length / 2)
          let rawPlaintext := winrt_secure_zero_memory plaintext plaintext.length
          { state := st, result := .ok data, rawPlaintext := some rawPlaintext }

/-! ## Auxiliary definitions used in the statements -/

/-- Number of zero bytes the constructor appends to `n` bytes of characters. -/
def paddingBytes (B n : Nat) : Nat :=
  if n % B = 0 then 0 else B - n % B

/-- The characters `decrypt` holds after the in-place unprotect call. -/
def win32_encryption.unprotected (CryptUnprotectMemory : MemPrimitive)
    (self : win32_encryption) : List WChar :=
  wcharsOfBytes (CryptUnprotectMemory self.m_buffer).bytes

/-- The backend contract the synchronous protector relies on: unprotect,
applied to the output of a successful protect of a buffer whose size is a
multiple of the block size, succeeds and restores the original bytes. -/
def Restores (B : Nat) (protect unprotect : MemPrimitive) : Prop :=
  ∀ b : List Byte, B ∣ b.length → (protect b).success = true →
    (unprotect (protect b).bytes).success = true ∧ (unprotect (protect b).bytes).bytes = b

/-- The backend contract the asynchronous protector relies on: the platform
service protects the given bytes, and its unprotect restores them. -/
def RestoresAsync (protect unprotect : AsyncOperation) (b : List Byte) : Prop :=
  ∃ c, protect b = .ok c ∧ unprotect c = .ok b

/-- What holds of the asynchronous protector built from `s` at every point of
every schedule: the transient buffer holds the bytes of `s` until the
continuation has run and zero bytes afterwards, and the task, once resolved,
holds what the service computed from the bytes of `s`. -/
def AsyncInvariant (protect : AsyncOperation) (s : List WChar) (st : AsyncState) : Prop :=
  (st.self.m_buffer = .pending ∧ st.continuation_ran = false
      ∧ st.plaintext = bytesOfWString s)
    ∨ (st.self.m_buffer = .completed (protect (bytesOfWString s))
      ∧ st.continuation_ran = false ∧ st.plaintext = bytesOfWString s)
    ∨ (st.self.m_buffer = .completed (protect (bytesOfWString s))
      ∧ st.continuation_ran = true
      ∧ st.plaintext = List.replicate (s.length * sizeof_value_type) 0)

/-- The characters read back from the storage a `plaintext_string` with
characters `data` had when its deleter deallocated it. -/
def releasedCharacters (cplusplus_winrt : Bool) (data : List WChar) : List WChar :=
  wstring_from (zero_memory_deleter cplusplus_winrt data) data.length

/-! ## Sample primitives

Concrete stand-ins for the operating-system primitives, used to evaluate the
definitions on concrete inputs. -/

/-- A sample `CryptProtectMemory` for block size 16: rejects a region whose
size is not a multiple of 16 with `ERROR_INVALID_PARAMETER` (87), and
otherwise adds 1 to every byte. -/
def sampleProtect : MemPrimitive := fun region =>
  if region.length % 16 = 0 then
    ⟨true, 0, region.map (· + 1), by simp⟩
  else
    ⟨false, 87, region, rfl⟩

/-- The inverse of `sampleProtect`: subtracts 1 from every byte. -/
def sampleUnprotect : MemPrimitive := fun region =>
  if region.length % 16 = 0 then
    ⟨true, 0, region.map (· - 1), by simp⟩
  else
    ⟨false, 87, region, rfl⟩

/-- A primitive that always fails with the given error code and leaves the
region as it is. -/
def failingPrimitive (code : Nat) : MemPrimitive := fun region =>
  ⟨false, code, region, rfl⟩

/-- A sample `ProtectAsync`: prefixes a one-byte header and reverses the
bytes; buffers of more than 64 bytes are refused with error code 7. -/
def sampleProtectAsync : AsyncOperation := fun b =>
  if b.length ≤ 64 then .ok (0x50 :: b.reverse) else .error 7

/-- The inverse of `sampleProtectAsync`; a buffer without the header is
refused with error code 13. -/
def sampleUnprotectAsync : AsyncOperation := fun c =>
  match c with
  | 0x50 :: rest => .ok rest.reverse
  | _ => .error 13

/-- An asynchronous operation whose task always resolves to the platform
error `code`. -/
def refusingAsync (code : Nat) : AsyncOperation := fun _ => .error code

/-! ## Code units and bytes -/

theorem length_bytesOfWString (s : List WChar) :
    (bytesOfWString s).length = 2 * s.length := by
  induction s with
  | nil => rfl
  | cons c cs ih => simp [bytesOfWString, bytesOfWChar, ih]; omega

theorem wcharOfBytes_bytesOfWChar (c : WChar) :
    wcharOfBytes ⟨c.val % 256, Nat.mod_lt _ (by decide)⟩
      ⟨c.val / 256, by have := c.isLt; omega⟩ = c := by
  apply Fin.ext
  simp only [wcharOfBytes]
  omega

theorem wcharsOfBytes_append (s : List WChar) (rest : List Byte) :
    wcharsOfBytes (bytesOfWString s ++ rest) = s ++ wcharsOfBytes rest := by
  induction s with
  | nil => rfl
  | cons c cs ih =>
      have h : bytesOfWString (c :: cs) ++ rest
          = ⟨c.val % 256, Nat.mod_lt _ (by decide)⟩
            :: ⟨c.val / 256, by have := c.isLt; omega⟩
            :: (bytesOfWString cs ++ rest) := rfl
      rw [h]
      simp only [wcharsOfBytes, wcharOfBytes_bytesOfWChar, ih, List.cons_append]

theorem length_wcharsOfBytes : ∀ (b : List Byte),
    (wcharsOfBytes b).length = b.length / 2
  | [] => rfl
  | [_] => by simp [wcharsOfBytes]
  | _ :: _ :: rest => by
      simp only [wcharsOfBytes, List.length_cons, length_wcharsOfBytes rest]
      omega

theorem bytesOfWString_wcharsOfBytes : ∀ (b : List Byte), 2 ∣ b.length →
    bytesOfWString (wcharsOfBytes b) = b
  | [], _ => rfl
  | [_], h => by simp at h
  | lo :: hi :: rest, h => by
      have hr : 2 ∣ rest.length := by
        simp only [List.length_cons] at h
        omega
      have hlo : (⟨(lo.val + 256 * hi.val) % 256, Nat.mod_lt _ (by decide)⟩ : Byte) = lo := by
        apply Fin.ext
        have := lo.isLt
        simp only
        omega
      have hhi : (⟨(lo.val + 256 * hi.val) / 256,
          by have := lo.isLt; have := hi.isLt; omega⟩ : Byte) = hi := by
        apply Fin.ext
        have := lo.isLt
        simp only
        omega
      simp only [wcharsOfBytes, bytesOfWString, bytesOfWChar, wcharOfBytes, hlo, hhi,
        bytesOfWString_wcharsOfBytes rest hr, List.cons_append, List.nil_append]

/-! ## The padded buffer of the synchronous constructor -/

theorem paddedBuffer_eq (B : Nat) (hB : 0 < B) (s : List WChar) :
    win32_encryption.paddedBuffer B s
      = bytesOfWString s ++ List.replicate (paddingBytes B (2 * s.length)) 0 := by
  have hcopy : memcpy_s (resize ([] : List Byte) (s.length * sizeof_value_type))
      (resize ([] : List Byte) (s.length * sizeof_value_type)).length (c_str s)
      (s.length * sizeof_value_type) = bytesOfWString s := by
    have hlen := length_bytesOfWString s
    simp only [memcpy_s, resize, c_str, sizeof_value_type, List.take_nil, List.length_nil,
      List.nil_append, Nat.sub_zero, List.drop_replicate, Nat.sub_self, List.replicate_zero,
      List.append_nil, List.length_replicate, Nat.le_refl, if_true]
    rw [List.take_append_of_le_length (by omega), List.take_of_length_le (by omega)]
  have hlen := length_bytesOfWString s
  simp only [win32_encryption.paddedBuffer, hcopy, hlen, paddingBytes]
  by_cases hmod : 2 * s.length % B = 0
  · simp [hmod]
  · have hlt : 2 * s.length % B ≤ B := (Nat.mod_lt _ hB).le
    simp only [hmod, ne_eq, not_false_eq_true, ↓reduceIte, resize, hlen]
    rw [List.take_of_length_le (by rw [hlen]; omega)]
    congr 2
    omega

theorem length_paddedBuffer (B : Nat) (hB : 0 < B) (s : List WChar) :
    (win32_encryption.paddedBuffer B s).length
      = 2 * s.length + paddingBytes B (2 * s.length) := by
  rw [paddedBuffer_eq B hB, List.length_append, length_bytesOfWString, List.length_replicate]

theorem paddingBytes_dvd (B n : Nat) (hB : 0 < B) : B ∣ n + paddingBytes B n := by
  unfold paddingBytes
  split
  · next h => simpa using Nat.dvd_of_mod_eq_zero h
  · next h =>
      have hlt := Nat.mod_lt n hB
      have hdiv := Nat.div_add_mod n B
      refine ⟨n / B + 1, ?_⟩
      rw [Nat.mul_add, Nat.mul_one]
      omega

theorem paddingBytes_lt (B n : Nat) (hB : 0 < B) : paddingBytes B n < B := by
  unfold paddingBytes
  split
  · exact hB
  · next h => omega

theorem paddedBuffer_dvd (B : Nat) (hB : 0 < B) (s : List WChar) :
    B ∣ (win32_encryption.paddedBuffer B s).length := by
  rw [length_paddedBuffer B hB]
  exact paddingBytes_dvd B _ hB

theorem paddingBytes_even (B n : Nat) (hB : 0 < B) (h2 : 2 ∣ B) (hn : 2 ∣ n) :
    2 ∣ paddingBytes B n := by
  have h := Nat.dvd_trans h2 (paddingBytes_dvd B n hB)
  omega

/-! ## The synchronous `decrypt` on a buffer of even size -/

theorem decrypt_storage_take (b : List Byte) (h : 2 ∣ b.length) :
    (c_str (wstring_from b (b.length / 2))).take b.length = b := by
  have hfull : wstring_from b (b.length / 2) = wcharsOfBytes b := by
    unfold wstring_from
    exact List.take_of_length_le (by rw [length_wcharsOfBytes])
  rw [hfull, c_str, bytesOfWString_wcharsOfBytes b h, List.take_left]

theorem decrypt_storage_drop (b : List Byte) (h : 2 ∣ b.length) :
    (c_str (wstring_from b (b.length / 2))).drop b.length = [0, 0] := by
  have hfull : wstring_from b (b.length / 2) = wcharsOfBytes b := by
    unfold wstring_from
    exact List.take_of_length_le (by rw [length_wcharsOfBytes])
  rw [hfull, c_str, bytesOfWString_wcharsOfBytes b h, List.drop_left]

theorem decrypt_of_even (U : MemPrimitive) (self : win32_encryption)
    (h : 2 ∣ self.m_buffer.length) :
    (win32_encryption.decrypt U self).outcome
      = if !(U self.m_buffer).success then
          .threw (U self.m_buffer).lastError
            (zero_memory_deleter false (self.unprotected U))
        else
          .returned (resize (self.unprotected U) self.m_numCharacters) := by
  have hdata : ∀ (r : MemResult self.m_buffer.length),
      wstring_from (r.bytes ++ [0, 0]) (wstring_from self.m_buffer (self.m_buffer.length / 2)).length
        = wcharsOfBytes r.bytes := by
    intro r
    have hr : 2 ∣ r.bytes.length := by rw [r.size_eq]; exact h
    unfold wstring_from
    rw [List.length_take, length_wcharsOfBytes, Nat.min_self]
    conv_lhs => rw [← bytesOfWString_wcharsOfBytes r.bytes hr, wcharsOfBytes_append]
    rw [List.take_append_of_le_length (by rw [length_wcharsOfBytes, r.size_eq]),
      List.take_of_length_le (by rw [length_wcharsOfBytes, r.size_eq])]
  simp only [win32_encryption.decrypt, win32_encryption.unprotected]
  rw [decrypt_storage_drop _ h]
  generalize hreg : (c_str (wstring_from self.m_buffer (self.m_buffer.length / 2))).take
    self.m_buffer.length = region
  have hregion : region = self.m_buffer := by rw [← hreg]; exact decrypt_storage_take _ h
  subst hregion
  rw [hdata]
  split <;> rfl

/-! ## The eraser loop -/

theorem length_loop (count : Nat) : ∀ (mem : List Byte) (vptr : Nat),
    (winrt_secure_zero_memory.loop mem vptr count).length = mem.length := by
  induction count with
  | zero => intro mem vptr; rfl
  | succ n ih =>
      intro mem vptr
      rw [winrt_secure_zero_memory.loop, ih, List.length_set]

theorem getElem?_loop (count : Nat) : ∀ (mem : List Byte) (vptr i : Nat),
    (winrt_secure_zero_memory.loop mem vptr count)[i]?
      = if vptr ≤ i ∧ i < vptr + count then mem[i]?.map (fun _ => 0) else mem[i]? := by
  induction count with
  | zero =>
      intro mem vptr i
      have : ¬ (vptr ≤ i ∧ i < vptr + 0) := by omega
      simp only [winrt_secure_zero_memory.loop, this, if_false]
  | succ n ih =>
      intro mem vptr i
      rw [winrt_secure_zero_memory.loop, ih, List.getElem?_set]
      by_cases h1 : vptr = i
      · subst h1
        have hn : ¬ (vptr + 1 ≤ vptr ∧ vptr < vptr + 1 + n) := by omega
        have hy : vptr ≤ vptr ∧ vptr < vptr + (n + 1) := by omega
        simp only [hn, hy, if_false, if_true]
        by_cases hlt : vptr < mem.length
        · simp [hlt, List.getElem?_eq_getElem hlt]
        · simp [hlt, List.getElem?_eq_none (Nat.le_of_not_lt hlt)]
      · by_cases h2 : vptr + 1 ≤ i ∧ i < vptr + 1 + n
        · have hy : vptr ≤ i ∧ i < vptr + (n + 1) := by omega
          simp [h1, h2, hy]
        · have hy : ¬ (vptr ≤ i ∧ i < vptr + (n + 1)) := by omega
          simp [h1, h2, hy]

theorem winrt_secure_zero_memory_eq (buffer : List Byte) (count : Nat) :
    winrt_secure_zero_memory buffer count
      = List.replicate (min count buffer.length) 0 ++ buffer.drop count := by
  apply List.ext_getElem?
  intro i
  rw [winrt_secure_zero_memory, getElem?_loop]
  by_cases hi : i < count
  · have hc : 0 ≤ i ∧ i < 0 + count := by omega
    rw [if_pos hc]
    by_cases hlen : i < buffer.length
    · rw [List.getElem?_append_left (by simp; omega), List.getElem?_eq_getElem hlen]
      simp [List.getElem?_replicate, hi, hlen]
    · have hge : buffer.length ≤ i := Nat.le_of_not_lt hlen
      rw [List.getElem?_eq_none hge, List.getElem?_eq_none]
      · rfl
      · simp only [List.length_append, List.length_replicate, List.length_drop]
        omega
  · have hc : ¬ (0 ≤ i ∧ i < 0 + count) := by omega
    rw [if_neg hc]
    by_cases hlen : count ≤ buffer.length
    · rw [List.getElem?_append_right (by simp; omega)]
      simp only [List.length_replicate, List.getElem?_drop, Nat.min_eq_left hlen]
      congr 1
      omega
    · have hge : buffer.length ≤ i := by omega
      rw [List.getElem?_eq_none hge, List.getElem?_eq_none]
      simp only [List.length_append, List.length_replicate, List.length_drop]
      omega

theorem winrt_secure_zero_memory_all (buffer : List Byte) :
    winrt_secure_zero_memory buffer buffer.length = List.replicate buffer.length 0 := by
  rw [winrt_secure_zero_memory_eq, Nat.min_self, List.drop_length, List.append_nil]

theorem zero_memory_deleter_eq (cplusplus_winrt : Bool) (data : List WChar) :
    zero_memory_deleter cplusplus_winrt data
      = List.replicate (2 * data.length) 0 ++ [0, 0] := by
  have hlen := length_bytesOfWString data
  have hmin : min (data.length * 2) (bytesOfWString data ++ [0, 0]).length = 2 * data.length := by
    rw [List.length_append, hlen]
    simp
    omega
  have hdrop : (bytesOfWString data ++ [0, 0]).drop (data.length * 2) = [0, 0] := by
    have : data.length * 2 = (bytesOfWString data).length := by omega
    rw [this, List.drop_left]
  cases cplusplus_winrt
  · simp only [zero_memory_deleter, SecureZeroMemory, c_str, sizeof_value_type, hmin, hdrop]
    rfl
  · simp only [zero_memory_deleter, winrt_secure_zero_memory_eq, c_str, sizeof_value_type,
      hmin, hdrop]
    rfl

/-! ## The synchronous protector: shared facts -/

theorem create_result (B : Nat) (P : MemPrimitive) (s : List WChar) :
    (win32_encryption.create B P s).result
      = if (P (win32_encryption.paddedBuffer B s)).success = true then
          .ok { m_buffer := (P (win32_encryption.paddedBuffer B s)).bytes,
                m_numCharacters := s.length }
        else .error (P (win32_encryption.paddedBuffer B s)).lastError := by
  simp only [win32_encryption.create]
  cases h : (P (win32_encryption.paddedBuffer B s)).success <;> simp

theorem created_even (B : Nat) (hB : 0 < B) (h2 : 2 ∣ B) (P : MemPrimitive)
    (s : List WChar) :
    2 ∣ (P (win32_encryption.paddedBuffer B s)).bytes.length := by
  rw [(P _).size_eq]
  exact Nat.dvd_trans h2 (paddedBuffer_dvd B hB s)

theorem resize_padded (B : Nat) (hB : 0 < B) (s : List WChar) :
    resize (wcharsOfBytes (win32_encryption.paddedBuffer B s)) s.length = s := by
  rw [paddedBuffer_eq B hB, wcharsOfBytes_append, resize, List.take_left,
    List.length_append]
  simp

theorem decrypt_created (B : Nat) (hB : 0 < B) (h2 : 2 ∣ B) (P U : MemPrimitive)
    (hR : Restores B P U) (s : List WChar)
    (hP : (P (win32_encryption.paddedBuffer B s)).success = true) :
    (win32_encryption.decrypt U
        { m_buffer := (P (win32_encryption.paddedBuffer B s)).bytes,
          m_numCharacters := s.length }).outcome
      = .returned s := by
  obtain ⟨hs, hb⟩ := hR _ (paddedBuffer_dvd B hB s) hP
  rw [decrypt_of_even U _ (created_even B hB h2 P s)]
  simp only [win32_encryption.unprotected, hs, hb, resize_padded B hB s]
  rfl

theorem decrypt_self (U : MemPrimitive) (self : win32_encryption) :
    (win32_encryption.decrypt U self).self = self := by
  unfold win32_encryption.decrypt
  simp only
  split <;> rfl

theorem sample_restores : Restores 16 sampleProtect sampleUnprotect := by
  intro b hb hP
  have hmod : b.length % 16 = 0 := Nat.mod_eq_zero_of_dvd hb
  have hmap : (b.map (· + 1)).length % 16 = 0 := by simpa using hmod
  have hPb : (sampleProtect b).bytes = b.map (· + 1) := by
    simp only [sampleProtect]
    split
    · rfl
    · contradiction
  rw [hPb]
  have hU : ∀ c : List Byte, c.length % 16 = 0 →
      (sampleUnprotect c).success = true ∧ (sampleUnprotect c).bytes = c.map (· - 1) := by
    intro c hc
    simp only [sampleUnprotect]
    split
    · exact ⟨rfl, rfl⟩
    · contradiction
  obtain ⟨h1, h2⟩ := hU _ hmap
  refine ⟨h1, ?_⟩
  rw [h2, List.map_map]
  have : ((fun x : Byte => x - 1) ∘ fun x => x + 1) = id := by
    funext x
    simp
  rw [this, List.map_id]

theorem length_resize {α : Type} [Zero α] (v : List α) (n : Nat) :
    (resize v n).length = n := by
  simp only [resize, List.length_append, List.length_take, List.length_replicate]
  omega

theorem least_multiple (B n pad m : Nat) (hpad : pad < B) (hL : B ∣ n + pad)
    (hm : B ∣ m) (hnm : n ≤ m) : n + pad ≤ m := by
  obtain ⟨a, ha⟩ := hL
  obtain ⟨b, hb⟩ := hm
  by_contra hlt
  have hba : b < a := by
    by_contra hge
    have := Nat.mul_le_mul_left B (Nat.le_of_not_lt hge)
    omega
  have := Nat.mul_le_mul_left B (Nat.succ_le_of_lt hba)
  rw [Nat.mul_succ] at this
  omega

theorem paddingBytes_of_dvd (B n : Nat) (h : B ∣ n) : paddingBytes B n = 0 := by
  simp [paddingBytes, Nat.mod_eq_zero_of_dvd h]

/-! ## Claims about the synchronous protector -/

/-- C1 (synchronous round trip). For a block size that is a positive, even
number of bytes and primitives such that unprotect restores what protect
produced from a block-multiple buffer: whenever protect succeeds on the padded
buffer of a secret `s` (of any length), the constructor yields a protector,
and `decrypt` on it returns exactly the characters of `s`. -/
theorem win32_round_trip (B : Nat) (hB : 0 < B) (h2 : 2 ∣ B) (P U : MemPrimitive)
    (hR : Restores B P U) (s : List WChar)
    (hP : (P (win32_encryption.paddedBuffer B s)).success = true) :
    (win32_encryption.create B P s).result
        = .ok { m_buffer := (P (win32_encryption.paddedBuffer B s)).bytes,
                m_numCharacters := s.length }
      ∧ (win32_encryption.decrypt U
          { m_buffer := (P (win32_encryption.paddedBuffer B s)).bytes,
            m_numCharacters := s.length }).outcome = .returned s := by
  refine ⟨?_, decrypt_created B hB h2 P U hR s hP⟩
  rw [create_result, if_pos hP]

/-- Witness for C1: the secret "ab☺" with the sample primitives and block
size 16. -/
theorem win32_round_trip_witness :
    (win32_encryption.create 16 sampleProtect [0x61, 0x62, 0x263A]).result
        = .ok { m_buffer :=
                  (sampleProtect (win32_encryption.paddedBuffer 16 [0x61, 0x62, 0x263A])).bytes,
                m_numCharacters := 3 }
      ∧ (win32_encryption.decrypt sampleUnprotect
          { m_buffer :=
              (sampleProtect (win32_encryption.paddedBuffer 16 [0x61, 0x62, 0x263A])).bytes,
            m_numCharacters := 3 }).outcome = .returned [0x61, 0x62, 0x263A] :=
  win32_round_trip 16 (by decide) (by decide) sampleProtect sampleUnprotect
    sample_restores [0x61, 0x62, 0x263A] (by decide)

/-- C2 (idempotent decrypt). For every protector `p` the constructor built
from `s` (under the backend contract of C1), `decrypt` leaves `p` as it was,
a second `decrypt` on the protector so left does too, and both calls return
the characters of `s`, hence equal values. -/
theorem win32_decrypt_idempotent (B : Nat) (hB : 0 < B) (h2 : 2 ∣ B)
    (P U : MemPrimitive) (hR : Restores B P U) (s : List WChar)
    (p : win32_encryption) (hp : (win32_encryption.create B P s).result = .ok p) :
    (win32_encryption.decrypt U p).self = p
      ∧ (win32_encryption.decrypt U p).outcome = .returned s
      ∧ (win32_encryption.decrypt U (win32_encryption.decrypt U p).self).self = p
      ∧ (win32_encryption.decrypt U (win32_encryption.decrypt U p).self).outcome
          = .returned s
      ∧ (win32_encryption.decrypt U (win32_encryption.decrypt U p).self).outcome
          = (win32_encryption.decrypt U p).outcome := by
  rw [create_result] at hp
  by_cases hP : (P (win32_encryption.paddedBuffer B s)).success = true
  · rw [if_pos hP] at hp
    cases hp
    have hd := decrypt_created B hB h2 P U hR s hP
    simp only [decrypt_self, hd, and_self]
  · rw [if_neg hP] at hp
    cases hp

/-- Witness for C2: the protector built from "ab☺" with the sample
primitives. -/
theorem win32_decrypt_idempotent_witness :
    (win32_encryption.decrypt sampleUnprotect
        ⟨[0x62, 1, 0x63, 1, 0x3b, 0x27, 1, 1, 1, 1, 1, 1, 1, 1, 1, 1], 3⟩).self
        = ⟨[0x62, 1, 0x63, 1, 0x3b, 0x27, 1, 1, 1, 1, 1, 1, 1, 1, 1, 1], 3⟩
      ∧ (win32_encryption.decrypt sampleUnprotect
          ⟨[0x62, 1, 0x63, 1, 0x3b, 0x27, 1, 1, 1, 1, 1, 1, 1, 1, 1, 1], 3⟩).outcome
        = .returned [0x61, 0x62, 0x263A]
      ∧ (win32_encryption.decrypt sampleUnprotect
          (win32_encryption.decrypt sampleUnprotect
            ⟨[0x62, 1, 0x63, 1, 0x3b, 0x27, 1, 1, 1, 1, 1, 1, 1, 1, 1, 1], 3⟩).self).self
        = ⟨[0x62, 1, 0x63, 1, 0x3b, 0x27, 1, 1, 1, 1, 1, 1, 1, 1, 1, 1], 3⟩
      ∧ (win32_encryption.decrypt sampleUnprotect
          (win32_encryption.decrypt sampleUnprotect
            ⟨[0x62, 1, 0x63, 1, 0x3b, 0x27, 1, 1, 1, 1, 1, 1, 1, 1, 1, 1], 3⟩).self).outcome
        = .returned [0x61, 0x62, 0x263A]
      ∧ (win32_encryption.decrypt sampleUnprotect
          (win32_encryption.decrypt sampleUnprotect
            ⟨[0x62, 1, 0x63, 1, 0x3b, 0x27, 1, 1, 1, 1, 1, 1, 1, 1, 1, 1], 3⟩).self).outcome
        = (win32_encryption.decrypt sampleUnprotect
            ⟨[0x62, 1, 0x63, 1, 0x3b, 0x27, 1, 1, 1, 1, 1, 1, 1, 1, 1, 1], 3⟩).outcome :=
  win32_decrypt_idempotent 16 (by decide) (by decide) sampleProtect sampleUnprotect
    sample_restores [0x61, 0x62, 0x263A]
    ⟨[0x62, 1, 0x63, 1, 0x3b, 0x27, 1, 1, 1, 1, 1, 1, 1, 1, 1, 1], 3⟩ rfl

/-- C3 (backend failure). The constructor throws the system error with code
`code` exactly when `CryptProtectMemory` reports failure with that last-error
code, and then yields no object; when the primitive succeeds it yields the
protector. On a constructed protector, `decrypt` throws the system error with
code `code` exactly when `CryptUnprotectMemory` reports failure with that
code, it returns a handle when the primitive succeeds, and it leaves the
protector unchanged either way. -/
theorem win32_backend_failure (B : Nat) (hB : 0 < B) (h2 : 2 ∣ B)
    (P U : MemPrimitive) (s : List WChar) (code : Nat) :
    ((win32_encryption.create B P s).result = .error code ↔
        (P (win32_encryption.paddedBuffer B s)).success = false
          ∧ (P (win32_encryption.paddedBuffer B s)).lastError = code)
      ∧ ((P (win32_encryption.paddedBuffer B s)).success = true →
          (win32_encryption.create B P s).result
            = .ok { m_buffer := (P (win32_encryption.paddedBuffer B s)).bytes,
                    m_numCharacters := s.length })
      ∧ ∀ p : win32_encryption, (win32_encryption.create B P s).result = .ok p →
          ((∃ released, (win32_encryption.decrypt U p).outcome = .threw code released) ↔
              (U p.m_buffer).success = false ∧ (U p.m_buffer).lastError = code)
            ∧ ((U p.m_buffer).success = true →
                ∃ handle, (win32_encryption.decrypt U p).outcome = .returned handle)
            ∧ (win32_encryption.decrypt U p).self = p := by
  refine ⟨?_, ?_, ?_⟩
  · rw [create_result]
    cases h : (P (win32_encryption.paddedBuffer B s)).success <;> simp
  · intro hP
    rw [create_result, if_pos hP]
  · intro p hp
    have heven : 2 ∣ p.m_buffer.length := by
      rw [create_result] at hp
      split at hp
      · cases hp
        exact created_even B hB h2 P s
      · cases hp
    refine ⟨?_, ?_, decrypt_self U p⟩
    · rw [decrypt_of_even U p heven]
      cases h : (U p.m_buffer).success <;> simp
    · intro hU
      rw [decrypt_of_even U p heven]
      simp [hU]

/-- Witness for C3: with the sample protect and an unprotect primitive that
fails with code 5, `decrypt` on the protector built from "ab☺" throws the
system error with code 5. -/
theorem win32_backend_failure_witness :
    ∃ released,
      (win32_encryption.decrypt (failingPrimitive 5)
        ⟨[0x62, 1, 0x63, 1, 0x3b, 0x27, 1, 1, 1, 1, 1, 1, 1, 1, 1, 1], 3⟩).outcome
        = .threw 5 released :=
  ((win32_backend_failure 16 (by decide) (by decide) sampleProtect (failingPrimitive 5)
      [0x61, 0x62, 0x263A] 5).2.2
    ⟨[0x62, 1, 0x63, 1, 0x3b, 0x27, 1, 1, 1, 1, 1, 1, 1, 1, 1, 1], 3⟩ rfl).1.2 ⟨rfl, rfl⟩

/-- C4 (padding invariant). With `n` the unpadded byte length of `s`, the
buffer handed to `CryptProtectMemory` has a size that is a multiple of the
block size `B`, is at least `n`, is the least such multiple, is below
`n + B`, and is `n` itself when `B` divides `n`; the buffer a constructed
protector stores has that same size; and for a secret whose byte length is a
multiple of `B`, a successful `decrypt` returns as many characters as `s` has. -/
theorem win32_padding_invariant (B : Nat) (hB : 0 < B) (P : MemPrimitive)
    (s : List WChar) :
    B ∣ (win32_encryption.paddedBuffer B s).length
      ∧ s.length * sizeof_value_type ≤ (win32_encryption.paddedBuffer B s).length
      ∧ (∀ m, B ∣ m → s.length * sizeof_value_type ≤ m →
          (win32_encryption.paddedBuffer B s).length ≤ m)
      ∧ (win32_encryption.paddedBuffer B s).length < s.length * sizeof_value_type + B
      ∧ (B ∣ s.length * sizeof_value_type →
          (win32_encryption.paddedBuffer B s).length = s.length * sizeof_value_type)
      ∧ (∀ p : win32_encryption, (win32_encryption.create B P s).result = .ok p →
          p.m_buffer.length = (win32_encryption.paddedBuffer B s).length
            ∧ p.m_numCharacters = s.length)
      ∧ (∀ (U : MemPrimitive) (p : win32_encryption),
          B ∣ s.length * sizeof_value_type →
          (win32_encryption.create B P s).result = .ok p →
          (U p.m_buffer).success = true →
          ∃ handle, (win32_encryption.decrypt U p).outcome = .returned handle
            ∧ handle.length = s.length) := by
  have hn : s.length * sizeof_value_type = 2 * s.length := by
    simp only [sizeof_value_type]; omega
  have hlen := length_paddedBuffer B hB s
  have hpad := paddingBytes_lt B (2 * s.length) hB
  have hdvd := paddingBytes_dvd B (2 * s.length) hB
  have hstored : ∀ p : win32_encryption, (win32_encryption.create B P s).result = .ok p →
      p.m_buffer.length = (win32_encryption.paddedBuffer B s).length
        ∧ p.m_numCharacters = s.length := by
    intro p hp
    rw [create_result] at hp
    split at hp
    · cases hp
      exact ⟨(P _).size_eq, rfl⟩
    · cases hp
  rw [hn, hlen]
  refine ⟨hdvd, by omega, ?_, by omega, ?_, ?_, ?_⟩
  · intro m hm hnm
    exact least_multiple B _ _ m hpad hdvd hm hnm
  · intro h
    rw [paddingBytes_of_dvd B _ h]
    rfl
  · intro p hp
    rw [← hlen]
    exact hstored p hp
  · intro U p h hp hU
    obtain ⟨hsize, hcount⟩ := hstored p hp
    have heven : 2 ∣ p.m_buffer.length := by
      rw [hsize, hlen, paddingBytes_of_dvd B _ h]
      exact ⟨s.length, rfl⟩
    refine ⟨resize (p.unprotected U) p.m_numCharacters, ?_, ?_⟩
    · rw [decrypt_of_even U p heven]
      simp [hU]
    · rw [length_resize, hcount]

/-- Witness for C4: block size 16 and the three-character secret "ab☺"
(6 bytes): the padded buffer has 16 bytes. -/
theorem win32_padding_invariant_witness :
    16 ∣ (win32_encryption.paddedBuffer 16 [0x61, 0x62, 0x263A]).length
      ∧ 3 * sizeof_value_type ≤ (win32_encryption.paddedBuffer 16 [0x61, 0x62, 0x263A]).length :=
  ⟨(win32_padding_invariant 16 (by decide) sampleProtect [0x61, 0x62, 0x263A]).1,
   (win32_padding_invariant 16 (by decide) sampleProtect [0x61, 0x62, 0x263A]).2.1⟩

theorem paddedBuffer_nil (B : Nat) : win32_encryption.paddedBuffer B [] = [] := by
  simp [win32_encryption.paddedBuffer, resize, memcpy_s, c_str, bytesOfWString,
    sizeof_value_type]

/-- C5 (empty secret). For every block size, when the protect primitive
succeeds on a zero-length buffer the constructor stores a zero-length buffer
with character count 0, and when the unprotect primitive succeeds on it too,
`decrypt` on that protector returns the empty character sequence. -/
theorem win32_empty_secret (B : Nat) (P U : MemPrimitive)
    (hP : (P []).success = true) (hU : (U []).success = true) :
    (win32_encryption.create B P []).result = .ok { m_buffer := [], m_numCharacters := 0 }
      ∧ (win32_encryption.decrypt U { m_buffer := [], m_numCharacters := 0 }).outcome
          = .returned [] := by
  constructor
  · rw [create_result, paddedBuffer_nil, if_pos hP]
    have : (P []).bytes = [] := List.length_eq_zero.mp (P []).size_eq
    rw [this]
    rfl
  · rw [decrypt_of_even U { m_buffer := [], m_numCharacters := 0 } (Nat.dvd_zero 2)]
    simp [hU, resize]

/-- Witness for C5: the sample primitives accept the zero-length buffer. -/
theorem win32_empty_secret_witness :
    (win32_encryption.create 16 sampleProtect []).result
        = .ok { m_buffer := [], m_numCharacters := 0 }
      ∧ (win32_encryption.decrypt sampleUnprotect
          { m_buffer := [], m_numCharacters := 0 }).outcome = .returned [] :=
  win32_empty_secret 16 sampleProtect sampleUnprotect (by decide) (by decide)

/-! ## Claims about the eraser and the plaintext handle -/

/-- C7 (SecureEraser postcondition). The function `winrt_secure_zero_memory`
is total; for every buffer and every count it keeps the size of the buffer,
leaves 0 in each of the first `count` bytes, and leaves every byte at an
index `≥ count` as it was. -/
theorem winrt_secure_zero_memory_post (buffer : List Byte) (count : Nat) :
    (winrt_secure_zero_memory buffer count).length = buffer.length
      ∧ (∀ i, i < count → i < buffer.length →
          (winrt_secure_zero_memory buffer count)[i]? = some 0)
      ∧ (∀ i, count ≤ i →
          (winrt_secure_zero_memory buffer count)[i]? = buffer[i]?) := by
  refine ⟨length_loop count buffer 0, ?_, ?_⟩
  · intro i hi hlen
    have hc : 0 ≤ i ∧ i < 0 + count := by omega
    rw [winrt_secure_zero_memory, getElem?_loop, if_pos hc, List.getElem?_eq_getElem hlen]
    rfl
  · intro i hi
    have hc : ¬ (0 ≤ i ∧ i < 0 + count) := by omega
    rw [winrt_secure_zero_memory, getElem?_loop, if_neg hc]

theorem bytesOfWString_replicate_zero (n : Nat) :
    bytesOfWString (List.replicate n 0) = List.replicate (2 * n) 0 := by
  induction n with
  | zero => rfl
  | succ k ih =>
      have h : 2 * (k + 1) = (2 * k + 1) + 1 := by omega
      rw [List.replicate_succ, bytesOfWString, ih, h, List.replicate_succ, List.replicate_succ]
      rfl

theorem releasedCharacters_eq (w : Bool) (data : List WChar) :
    releasedCharacters w data = List.replicate data.length 0 := by
  rw [releasedCharacters, zero_memory_deleter_eq, ← bytesOfWString_replicate_zero,
    wstring_from, wcharsOfBytes_append]
  rw [List.take_append_of_le_length (by simp), List.take_of_length_le (by simp)]

/-- C6 (counterexample). The claim as stated, that after release no character
of the handle retains its original value, fails for a handle holding a null
character: in "a\0b" the character at index 1 is 0 before and after. -/
theorem zero_on_release_counterexample :
    ¬ ∀ (w : Bool) (data : List WChar) (i : Nat) (c : WChar),
        data[i]? = some c → (releasedCharacters w data)[i]? ≠ some c := by
  intro h
  exact h false [0x61, 0, 0x62] 1 0 rfl (by decide)

/-- C6 (amended). For every content of a `plaintext_string` and for both
branches of the deleter, all `size() * sizeof(value_type)` bytes of the
character data (and the terminator after them) are zero when the string is
deallocated; read back, every character is zero, so no non-zero character
retains its original value. The same holds on the error path of `decrypt`:
whenever it throws, the storage of its local handle was released all zero,
and on a buffer of even size it throws, with that release, whenever the
unprotect primitive fails. -/
theorem zero_on_release (w : Bool) (data : List WChar) :
    zero_memory_deleter w data
        = List.replicate (data.length * sizeof_value_type) 0 ++ [0, 0]
      ∧ releasedCharacters w data = List.replicate data.length 0
      ∧ (∀ (i : Nat) (c : WChar), data[i]? = some c → c ≠ 0 →
          (releasedCharacters w data)[i]? ≠ some c)
      ∧ (∀ (U : MemPrimitive) (self : win32_encryption) (code : Nat) (released : List Byte),
          (win32_encryption.decrypt U self).outcome = .threw code released →
          ∀ b ∈ released, b = 0)
      ∧ (∀ (U : MemPrimitive) (self : win32_encryption),
          2 ∣ self.m_buffer.length → (U self.m_buffer).success = false →
          (win32_encryption.decrypt U self).outcome
            = .threw (U self.m_buffer).lastError
                (List.replicate (self.m_buffer.length + 2) 0)) := by
  have hdel : ∀ d : List WChar, ∀ b ∈ zero_memory_deleter false d, b = 0 := by
    intro d b hb
    rw [zero_memory_deleter_eq] at hb
    rcases List.mem_append.mp hb with h | h
    · exact (List.mem_replicate.mp h).2
    · simp at h
      exact h
  refine ⟨?_, releasedCharacters_eq w data, ?_, ?_, ?_⟩
  · rw [zero_memory_deleter_eq]
    simp only [sizeof_value_type]
    rw [Nat.mul_comm]
  · intro i c hi hc hrel
    rw [releasedCharacters_eq, List.getElem?_replicate] at hrel
    split at hrel
    · exact hc (Option.some.inj hrel).symm
    · cases hrel
  · intro U self code released hout b hb
    simp only [win32_encryption.decrypt] at hout
    split at hout
    · cases hout
      exact hdel _ b hb
    · cases hout
  · intro U self heven hU
    rw [decrypt_of_even U self heven]
    simp only [hU, Bool.not_false, if_true, zero_memory_deleter_eq,
      win32_encryption.unprotected, length_wcharsOfBytes, (U self.m_buffer).size_eq]
    have h2 : 2 * (self.m_buffer.length / 2) = self.m_buffer.length := by omega
    rw [h2, List.replicate_add]
    rfl

/-! ## The asynchronous protector: shared facts -/

theorem winrt_create_result (s : List WChar) :
    (winrt_encryption.create s).result
      = .ok { self := { m_buffer := .pending },
              plaintext := bytesOfWString s,
              continuation_ran := false } := by
  have hlen := length_bytesOfWString s
  simp only [winrt_encryption.create, CreateFromByteArray, c_str, sizeof_value_type]
  rw [List.take_append_of_le_length (by omega), List.take_of_length_le (by omega)]

theorem invariant_initial (P : AsyncOperation) (s : List WChar) :
    AsyncInvariant P s
      { self := { m_buffer := .pending }, plaintext := bytesOfWString s,
        continuation_ran := false } :=
  Or.inl ⟨rfl, rfl, rfl⟩

theorem winrt_secure_zero_buffer_eq (buffer : List Byte) :
    winrt_secure_zero_buffer buffer = List.replicate buffer.length 0 :=
  winrt_secure_zero_memory_all buffer

theorem invariant_step (P : AsyncOperation) (s : List WChar) (e : Event)
    (st st' : AsyncState) (hinv : AsyncInvariant P s st)
    (hstep : AsyncState.step P e st = some st') : AsyncInvariant P s st' := by
  obtain ⟨⟨task⟩, plaintext, ran⟩ := st
  cases e with
  | resolve =>
      cases task with
      | pending =>
          simp only [AsyncState.step, Option.some.injEq] at hstep
          subst hstep
          rcases hinv with ⟨_, hran, hpt⟩ | ⟨h, _⟩ | ⟨h, _⟩
          · simp only at hran hpt
            subst hran hpt
            exact Or.inr (Or.inl ⟨rfl, rfl, rfl⟩)
          · cases h
          · cases h
      | completed v => simp [AsyncState.step] at hstep
  | continuation =>
      cases task with
      | pending => simp [AsyncState.step] at hstep
      | completed v =>
          cases ran with
          | true => simp [AsyncState.step] at hstep
          | false =>
              simp only [AsyncState.step, Bool.false_eq_true, if_false,
                Option.some.injEq] at hstep
              subst hstep
              rcases hinv with ⟨h, _⟩ | ⟨h, _, hpt⟩ | ⟨_, hran, _⟩
              · cases h
              · simp only at h hpt
                subst hpt
                refine Or.inr (Or.inr ⟨h, rfl, ?_⟩)
                simp only [winrt_secure_zero_buffer_eq, length_bytesOfWString,
                  sizeof_value_type]
                rw [Nat.mul_comm]
              · cases hran

theorem invariant_run (P : AsyncOperation) (s : List WChar) (evs : List Event) :
    ∀ st st' : AsyncState, AsyncInvariant P s st →
      AsyncState.run P evs st = some st' → AsyncInvariant P s st' := by
  induction evs with
  | nil =>
      intro st st' hinv hrun
      simp only [AsyncState.run, Option.some.injEq] at hrun
      subst hrun
      exact hinv
  | cons e es ih =>
      intro st st' hinv hrun
      simp only [AsyncState.run] at hrun
      cases hstep : AsyncState.step P e st with
      | none => rw [hstep] at hrun; cases hrun
      | some mid =>
          rw [hstep] at hrun
          exact ih mid st' (invariant_step P s e st mid hinv hstep) hrun

theorem invariant_reachable (P : AsyncOperation) (s : List WChar) (evs : List Event)
    (st0 st : AsyncState) (h0 : (winrt_encryption.create s).result = .ok st0)
    (hrun : AsyncState.run P evs st0 = some st) : AsyncInvariant P s st := by
  rw [winrt_create_result] at h0
  cases h0
  exact invariant_run P s evs _ st (invariant_initial P s) hrun

theorem get_of_invariant (P : AsyncOperation) (s : List WChar) (st : AsyncState)
    (hinv : AsyncInvariant P s st) :
    (AsyncState.get P st).2 = P (bytesOfWString s)
      ∧ (AsyncState.get P st).1.self.m_buffer = .completed (P (bytesOfWString s)) := by
  obtain ⟨⟨task⟩, plaintext, ran⟩ := st
  rcases hinv with ⟨h, _, hpt⟩ | ⟨h, _⟩ | ⟨h, _⟩
  · simp only at h hpt
    subst h hpt
    exact ⟨rfl, rfl⟩
  · simp only at h
    subst h
    exact ⟨rfl, rfl⟩
  · simp only at h
    subst h
    exact ⟨rfl, rfl⟩

theorem winrt_decrypt_ok (P U : AsyncOperation) (st : AsyncState)
    (c plain : List Byte) (hget : (AsyncState.get P st).2 = .ok c)
    (hU : U c = .ok plain) :
    winrt_encryption.decrypt P U st
      = { state := (AsyncState.get P st).1,
          result := .ok (wstring_from plain (plain.length / 2)),
          rawPlaintext := some (winrt_secure_zero_memory plain plain.length) } := by
  unfold winrt_encryption.decrypt
  generalize AsyncState.get P st = g at hget
  obtain ⟨st', v⟩ := g
  simp only at hget
  subst hget
  simp only [hU]

theorem wstring_from_bytes (s : List WChar) :
    wstring_from (bytesOfWString s) ((bytesOfWString s).length / 2) = s := by
  have h := wcharsOfBytes_append s []
  rw [List.append_nil] at h
  rw [wstring_from, h, length_bytesOfWString]
  simp [wcharsOfBytes]

/-! ## Claims about construction and the asynchronous protector -/

/-- C8 (counterexample). The claim as stated, that after construction the
input buffer no longer holds the secret, fails: after either constructor ran
on "ab☺" the caller's string still reads "ab☺". -/
theorem construction_input_counterexample :
    (win32_encryption.create 16 sampleProtect [0x61, 0x62, 0x263A]).data
        = [0x61, 0x62, 0x263A]
      ∧ (winrt_encryption.create [0x61, 0x62, 0x263A]).data = [0x61, 0x62, 0x263A] :=
  ⟨rfl, rfl⟩

/-- C8 (amended). Both constructors leave the caller's string as it was (they
read it through a const reference and work on a copy). The synchronous
protector, when constructed, stores exactly the output of the protect
primitive on the padded copy, together with the character count; the
asynchronous constructor hands a copy of the characters' bytes to the
service and returns with the protect task pending. -/
theorem construction_keeps_input (B : Nat) (P : MemPrimitive) (s : List WChar) :
    (win32_encryption.create B P s).data = s
      ∧ (winrt_encryption.create s).data = s
      ∧ (∀ p : win32_encryption, (win32_encryption.create B P s).result = .ok p →
          p.m_buffer = (P (win32_encryption.paddedBuffer B s)).bytes
            ∧ p.m_numCharacters = s.length)
      ∧ (winrt_encryption.create s).result
          = .ok { self := { m_buffer := .pending },
                  plaintext := bytesOfWString s,
                  continuation_ran := false } := by
  refine ⟨?_, rfl, ?_, winrt_create_result s⟩
  · simp only [win32_encryption.create]
    split <;> rfl
  · intro p hp
    rw [create_result] at hp
    split at hp
    · cases hp
      exact ⟨rfl, rfl⟩
    · cases hp

/-- C9 (asynchronous round trip). When the platform service protects the
bytes of `s` and its unprotect restores them, then in every state `st` the
task runtime can reach from the constructed protector, by any schedule,
`decrypt` returns exactly the characters of `s`; so it does on the state
`st0` the constructor leaves, where the task is still pending; and when
`decrypt` returns the protect task has resolved. -/
theorem winrt_round_trip (P U : AsyncOperation) (s : List WChar)
    (hR : RestoresAsync P U (bytesOfWString s)) (evs : List Event)
    (st0 st : AsyncState) (h0 : (winrt_encryption.create s).result = .ok st0)
    (hrun : AsyncState.run P evs st0 = some st) :
    (winrt_encryption.decrypt P U st).result = .ok s
      ∧ (winrt_encryption.decrypt P U st0).result = .ok s
      ∧ ∃ c, (winrt_encryption.decrypt P U st).state.self.m_buffer = .completed (.ok c) := by
  obtain ⟨c, hP, hU⟩ := hR
  have hinv := invariant_reachable P s evs st0 st h0 hrun
  have hinv0 := invariant_reachable P s [] st0 st0 h0 rfl
  obtain ⟨hget, htask⟩ := get_of_invariant P s st hinv
  obtain ⟨hget0, _⟩ := get_of_invariant P s st0 hinv0
  rw [hP] at hget hget0 htask
  rw [winrt_decrypt_ok P U st c _ hget hU, winrt_decrypt_ok P U st0 c _ hget0 hU]
  exact ⟨by rw [wstring_from_bytes], by rw [wstring_from_bytes], c, htask⟩

/-- Witness for C9: the secret "ab☺" with the sample service, `decrypt`
issued after the task resolved and the continuation zeroed the transient
buffer. -/
theorem winrt_round_trip_witness :
    (winrt_encryption.decrypt sampleProtectAsync sampleUnprotectAsync
        { self := { m_buffer := .completed (.ok [0x50, 0x26, 0x3A, 0, 0x62, 0, 0x61]) },
          plaintext := [0, 0, 0, 0, 0, 0],
          continuation_ran := true }).result = .ok [0x61, 0x62, 0x263A] :=
  (winrt_round_trip sampleProtectAsync sampleUnprotectAsync [0x61, 0x62, 0x263A]
    ⟨[0x50, 0x26, 0x3A, 0, 0x62, 0, 0x61], rfl, rfl⟩ [.resolve, .continuation]
    { self := { m_buffer := .pending },
      plaintext := [0x61, 0, 0x62, 0, 0x3A, 0x26],
      continuation_ran := false }
    { self := { m_buffer := .completed (.ok [0x50, 0x26, 0x3A, 0, 0x62, 0, 0x61]) },
      plaintext := [0, 0, 0, 0, 0, 0],
      continuation_ran := true }
    rfl rfl).1

/-- C10 (unconditional transient erase). In every state `st` the task runtime
can reach from the protector constructed from `s`: the transient buffer has
the size of the characters' bytes; while the task is pending the continuation
cannot run and the buffer still holds the bytes of `s`; once the task has
resolved, to a buffer or to an error, the continuation that has not yet run
can run and leaves every byte of the transient buffer zero; and once it has
run every byte is zero. Likewise, whenever `decrypt` obtains a buffer from
unprotect, it leaves all bytes of that buffer zero and returns the characters
copied from it before. -/
theorem winrt_transient_erase (P U : AsyncOperation) (s : List WChar)
    (evs : List Event) (st0 st : AsyncState)
    (h0 : (winrt_encryption.create s).result = .ok st0)
    (hrun : AsyncState.run P evs st0 = some st) :
    st.plaintext.length = s.length * sizeof_value_type
      ∧ (st.self.m_buffer = .pending →
          AsyncState.step P .continuation st = none
            ∧ st.plaintext = bytesOfWString s)
      ∧ (∀ v, st.self.m_buffer = .completed v → st.continuation_ran = false →
          AsyncState.step P .continuation st
            = some { st with
                plaintext := List.replicate (s.length * sizeof_value_type) 0,
                continuation_ran := true })
      ∧ (st.continuation_ran = true →
          st.plaintext = List.replicate (s.length * sizeof_value_type) 0)
      ∧ (∀ c plain, (AsyncState.get P st).2 = .ok c → U c = .ok plain →
          (winrt_encryption.decrypt P U st).rawPlaintext
              = some (List.replicate plain.length 0)
            ∧ (winrt_encryption.decrypt P U st).result
              = .ok (wstring_from plain (plain.length / 2))) := by
  have hinv := invariant_reachable P s evs st0 st h0 hrun
  have hbytes : (bytesOfWString s).length = s.length * sizeof_value_type := by
    rw [length_bytesOfWString, sizeof_value_type, Nat.mul_comm]
  obtain ⟨⟨task⟩, plaintext, ran⟩ := st
  refine ⟨?_, ?_, ?_, ?_, ?_⟩
  · rcases hinv with ⟨_, _, hpt⟩ | ⟨_, _, hpt⟩ | ⟨_, _, hpt⟩
    · simp only at hpt; rw [hpt, hbytes]
    · simp only at hpt; rw [hpt, hbytes]
    · simp only at hpt; rw [hpt, List.length_replicate]
  · intro hpend
    simp only at hpend
    subst hpend
    rcases hinv with ⟨_, _, hpt⟩ | ⟨h, _⟩ | ⟨h, _⟩
    · exact ⟨rfl, hpt⟩
    · cases h
    · cases h
  · intro v hv hran
    simp only at hv hran
    subst hv hran
    rcases hinv with ⟨h, _⟩ | ⟨_, _, hpt⟩ | ⟨_, hran, _⟩
    · cases h
    · simp only at hpt
      subst hpt
      simp only [AsyncState.step, Bool.false_eq_true, if_false, winrt_secure_zero_buffer_eq,
        hbytes]
    · cases hran
  · intro hran
    simp only at hran
    subst hran
    rcases hinv with ⟨_, h, _⟩ | ⟨_, h, _⟩ | ⟨_, _, hpt⟩
    · cases h
    · cases h
    · exact hpt
  · intro c plain hget hU
    rw [winrt_decrypt_ok P U _ c plain hget hU, winrt_secure_zero_memory_all]
    exact ⟨rfl, rfl⟩

/-- Witness for C10: the service refuses to protect "ab☺" (the task resolves
to error 7); the continuation still runs and zeroes all 6 bytes of the
transient buffer. -/
theorem winrt_transient_erase_witness :
    AsyncState.step (refusingAsync 7) .continuation
        { self := { m_buffer := .completed (.error 7) },
          plaintext := [0x61, 0, 0x62, 0, 0x3A, 0x26],
          continuation_ran := false }
      = some { self := { m_buffer := .completed (.error 7) },
               plaintext := List.replicate (3 * sizeof_value_type) 0,
               continuation_ran := true } :=
  (winrt_transient_erase (refusingAsync 7) sampleUnprotectAsync [0x61, 0x62, 0x263A]
    [.resolve]
    { self := { m_buffer := .pending },
      plaintext := [0x61, 0, 0x62, 0, 0x3A, 0x26],
      continuation_ran := false }
    { self := { m_buffer := .completed (.error 7) },
      plaintext := [0x61, 0, 0x62, 0, 0x3A, 0x26],
      continuation_ran := false }
    rfl rfl).2.2.1 (.error 7) rfl rfl

end web.details
